import Mathlib

/-!
Shallow embedding of the grid engine of game-of-life.js (v0.2.3).

The population is a JavaScript array of arrays of booleans.  We model it as a
map from a row index to an optional row: a missing row models an unset array
slot, whose member access throws a TypeError (propagated as Option.none), while
a present row is a total map from column index to cell truthiness, since a
column that was never written reads as undefined, which is falsy.  JavaScript
numbers that hold loop counters, lengths and coordinates are modelled as Int;
the draws of Math.random are float64 values, hence rationals, modelled as Rat.
-/

namespace GoL

/-- JavaScript remainder on integers: truncated division, the sign of the
result follows the dividend. -/
def jsRem (a b : Int) : Int := Int.tmod a b

/-- A population array: row index to optional row.  A present row is a total
map from column index to cell truthiness. -/
abbrev Pop := Int → Option (Int → Bool)

/-- Engine state of game-of-life.js: the grid dimensions xLength and yLength
fixed by init, and the population array. -/
structure Game where
  xLength : Int
  yLength : Int
  population : Pop

/-- Reading population[t][s]; none models the TypeError thrown when the row t
is missing (population[t] is undefined). -/
def popRead (p : Pop) (t s : Int) : Option Bool :=
  (p t).map (fun row => row s)

/-- Writing population[x][y] = v; none models the TypeError thrown when the
row x is missing. -/
def popWrite (p : Pop) (x y : Int) (v : Bool) : Option Pop :=
  match p x with
  | none => none
  | some row =>
    some (fun t => if t = x then some (fun s => if s = y then v else row s) else p t)

/-- Read a cell of a game's current population. -/
def readCell (g : Game) (t s : Int) : Option Bool := popRead g.population t s

/-- Row t of a grid holding cell contents f: columns inside [0, h) hold f,
columns outside read as undefined, i.e. dead. -/
def rowVal (h : Int) (f : Int → Int → Bool) (t s : Int) : Bool :=
  if 0 ≤ s ∧ s < h then f t s else false

/-- A w × h grid with cell contents f: rows exist exactly for indices in
[0, w).  Every population reachable through the engine has this shape. -/
def mkGrid (w h : Int) (f : Int → Int → Bool) : Game :=
  ⟨w, h, fun t => if 0 ≤ t ∧ t < w then some (rowVal h f t) else none⟩

/-- GameOfLife.prototype.init, grid part: population[i] = [] for
0 ≤ i < xLength.  Every cell of such an empty row reads as undefined, hence
dead; there is no dimension check and no failure path. -/
def init (w h : Int) : Game :=
  ⟨w, h, fun t => if 0 ≤ t ∧ t < w then some (fun _ => false) else none⟩

/-- The nine loop iterations (i, j) of the neighbour scan of
GameOfLife.prototype.neighbours, in source order. -/
def offsets9 : List (Int × Int) :=
  [(-1,-1),(-1,0),(-1,1),(0,-1),(0,0),(0,1),(1,-1),(1,0),(1,1)]

/-- GameOfLife.prototype.neighbours: scans all nine offsets with wrapped
indices t = (x+i+xLength) % xLength, s = (y+j+yLength) % yLength, counting
truthy cells, then decrements the count when population[x][y] — read without
wrapping — is truthy. -/
def neighbours (g : Game) (x y : Int) : Option Int := do
  let c ← offsets9.foldlM
    (fun c ij => do
      let b ← popRead g.population (jsRem (x + ij.1 + g.xLength) g.xLength)
        (jsRem (y + ij.2 + g.yLength) g.yLength)
      pure (if b = true then c + 1 else c))
    0
  let b ← popRead g.population x y
  pure (if b = true then c - 1 else c)

/-- GameOfLife.prototype.live: computes the neighbour count of (x, y) from the
current population and conditionally overwrites future[x][y]: a truthy cell
with count outside 2..3 is set dead, otherwise any cell with count exactly 3
is set alive; in all other cases the future buffer is left untouched. -/
def live (g : Game) (fut : Pop) (x y : Int) : Option Pop := do
  let n ← neighbours g x y
  let b ← popRead g.population x y
  if b = true ∧ (n < 2 ∨ n > 3) then popWrite fut x y false
  else if n = 3 then popWrite fut x y true
  else pure fut

/-- All loop index pairs (i, j) with 0 ≤ i < w outer and 0 ≤ j < h inner, in
source order. -/
def coords (w h : Int) : List (Int × Int) :=
  (List.range w.toNat).flatMap
    (fun i => (List.range h.toNat).map (fun j => ((Nat.cast i : Int), (Nat.cast j : Int))))

/-- GameOfLife.prototype.advance: deep-copies the population into the future
buffer (value semantics in this model), applies live to every cell, then walks
the grid comparing the old and the new value of every cell; each difference
invokes populate (recorded as the event (i, j, true)) or kill (recorded as
(i, j, false)).  Finally the future buffer becomes the population. -/
def advance (g : Game) : Option (Game × List (Int × Int × Bool)) := do
  let fut ← (coords g.xLength g.yLength).foldlM
    (fun fu ij => live g fu ij.1 ij.2) g.population
  let ch ← (coords g.xLength g.yLength).foldlM
    (fun acc ij => do
      let oldv ← popRead g.population ij.1 ij.2
      let newv ← popRead fut ij.1 ij.2
      pure (if oldv != newv then acc ++ [(ij.1, ij.2, newv)] else acc))
    ([] : List (Int × Int × Bool))
  pure (⟨g.xLength, g.yLength, fut⟩, ch)

/-- Truncation toward zero on rationals, as JavaScript division-based
remainders truncate. -/
def truncQ (q : ℚ) : Int := if 0 ≤ q then ⌊q⌋ else -⌊-q⌋

/-- JavaScript % on (rational-valued) numbers: a - b * trunc(a / b). -/
def jsRemQ (a b : ℚ) : ℚ := a - b * ((truncQ (a / b) : Int) : ℚ)

/-- Truthiness of Math.floor(r * 10 % 2) for a draw r of Math.random(): the
number is truthy exactly when it is nonzero. -/
def jsCoin (r : ℚ) : Bool := decide (⌊jsRemQ (r * 10) 2⌋ ≠ 0)

/-- GameOfLife.prototype.randomize, with the per-cell Math.random() draw
injected as draws i j.  The additional draw used by populate to pick a paint
color does not touch the grid and is not modelled.  A selected cell is set
alive; an unselected cell is left untouched. -/
def randomize (g : Game) (draws : Int → Int → ℚ) : Option Game := do
  let pop ← (coords g.xLength g.yLength).foldlM
    (fun p ij => if jsCoin (draws ij.1 ij.2) = true then popWrite p ij.1 ij.2 true else pure p)
    g.population
  pure ⟨g.xLength, g.yLength, pop⟩

/-- The polyfill GameOfLife.prototype.extend at its only call site, the line
this.future = this.extend(true, [], this.population) of killAll: the polyfill
takes its first argument as the merge target, so the target is the boolean
primitive true; the empty array contributes no keys, and copying any own key
of the population array onto the primitive target is a strict-mode TypeError
(the file is under "use strict").  The call returns the target only when the
population array has no own keys at all. -/
def extendTrueTarget (p : Pop) (w : Int) : Option Bool :=
  (List.range w.toNat).foldlM
    (fun out i => if (p (i : Int)).isSome then none else pure out) true

/-- GameOfLife.prototype.killAll, grid part: writes false into every cell,
then rebuilds the future buffer with extend(true, [], population).  The timer
toggling around the loop and the canvas clearing of kill(i, j) do not touch
the grid state. -/
def killAll (g : Game) : Option Game := do
  let pop ← (coords g.xLength g.yLength).foldlM
    (fun p ij => popWrite p ij.1 ij.2 false) g.population
  let _fut ← extendTrueTarget pop g.xLength
  pure ⟨g.xLength, g.yLength, pop⟩

/-- Coordinates inside the grid proper. -/
abbrev InRange (w h x y : Int) : Prop := 0 ≤ x ∧ x < w ∧ 0 ≤ y ∧ y < h

/-- Count, over a list of offsets, the entries satisfying p, starting from c. -/
def countFold {α : Type} (p : α → Bool) (l : List α) (c : Int) : Int :=
  l.foldl (fun c a => if p a = true then c + 1 else c) c

/-- Value computed by neighbours on a w × h grid with cell contents f when all
row accesses succeed: the nine-offset scan count, decremented when the center
cell is truthy. -/
def neighboursVal (w h : Int) (f : Int → Int → Bool) (x y : Int) : Int :=
  let c := countFold
    (fun ij => rowVal h f (jsRem (x + ij.1 + w) w) (jsRem (y + ij.2 + h) h)) offsets9 0
  if rowVal h f x y = true then c - 1 else c

/-- The eight neighbour offsets named by the spec: all (dx, dy) in {-1,0,1}²
excluding (0,0). -/
def offsets8 : List (Int × Int) :=
  [(-1,-1),(-1,0),(-1,1),(0,-1),(0,1),(1,-1),(1,0),(1,1)]

/-- Modelled from the spec: countLiveNeighbors examines the 8 toroidally
wrapped neighbours — all (dx, dy) in {-1,0,1}² excluding (0,0) — wrapping
coordinate arithmetic modulo width and height, and counts the live ones; the
center offset is excluded from the scan. -/
def specNeighborCount (w h : Int) (f : Int → Int → Bool) (x y : Int) : Int :=
  countFold (fun ij => f ((x + ij.1) % w) ((y + ij.2) % h)) offsets8 0

/-- The value of cell (x, y) after one generation step, as a function of the
pre-step cell contents f only: the effect of live on the future buffer. -/
def nextCell (w h : Int) (f : Int → Int → Bool) (x y : Int) : Bool :=
  if f x y = true ∧ (neighboursVal w h f x y < 2 ∨ neighboursVal w h f x y > 3) then false
  else if neighboursVal w h f x y = 3 then true
  else f x y

/-- The change events reported by advance on a w × h grid with cell contents
f: one event per cell whose value differs between the generations, carrying
the new value. -/
def changeList (w h : Int) (f : Int → Int → Bool) : List (Int × Int × Bool) :=
  (coords w h).filterMap (fun ij =>
    if f ij.1 ij.2 != nextCell w h f ij.1 ij.2
    then some (ij.1, ij.2, nextCell w h f ij.1 ij.2) else none)

/-- Set of idealized real draws r of Math.random() in [0, 1) whose cell is set
alive by randomize: truthiness of Math.floor(r * 10 % 2).  On the nonnegative
operands that occur here the JavaScript remainder is a - b * floor(a / b). -/
def aliveMeasureSet : Set ℝ :=
  {r : ℝ | r ∈ Set.Ico (0 : ℝ) 1 ∧ ⌊r * 10 - 2 * ((⌊r * 10 / 2⌋ : Int) : ℝ)⌋ ≠ 0}

/-! Helper lemmas about the wrapped indices and grid reads. -/

theorem jsRem_eq_emod {a b : Int} (ha : 0 ≤ a) (hb : 0 < b) : jsRem a b = a % b :=
  Int.tmod_eq_emod ha (le_of_lt hb)

theorem jsRem_range {a b : Int} (ha : 0 ≤ a) (hb : 0 < b) :
    0 ≤ jsRem a b ∧ jsRem a b < b := by
  refine ⟨Int.tmod_nonneg b ha, Int.tmod_lt_of_pos a hb⟩

theorem popRead_mkGrid {w : Int} (h : Int) (f : Int → Int → Bool) {t : Int}
    (ht : 0 ≤ t ∧ t < w) (s : Int) :
    popRead (mkGrid w h f).population t s = some (rowVal h f t s) := by
  simp [mkGrid, popRead, ht]

theorem rowVal_of_range {h : Int} (f : Int → Int → Bool) (t : Int) {s : Int}
    (hs : 0 ≤ s ∧ s < h) : rowVal h f t s = f t s := by
  simp [rowVal, hs]

theorem popWrite_spec {p : Pop} {x : Int} {row : Int → Bool} (hx : p x = some row)
    (y : Int) (v : Bool) :
    popWrite p x y v =
      some (fun t => if t = x then some (fun s => if s = y then v else row s) else p t) := by
  simp [popWrite, hx]

/-! Helper lemmas about countFold. -/

theorem countFold_cons {α : Type} (p : α → Bool) (a : α) (l : List α) (c : Int) :
    countFold p (a :: l) c = countFold p l (if p a = true then c + 1 else c) := rfl

theorem countFold_append {α : Type} (p : α → Bool) (l1 l2 : List α) (c : Int) :
    countFold p (l1 ++ l2) c = countFold p l2 (countFold p l1 c) := by
  unfold countFold
  rw [List.foldl_append]

theorem countFold_shift {α : Type} (p : α → Bool) (l : List α) :
    ∀ c k : Int, countFold p l (c + k) = countFold p l c + k := by
  induction l with
  | nil => intro c k; rfl
  | cons a l ih =>
    intro c k
    rw [countFold_cons, countFold_cons]
    by_cases hp : p a = true
    · rw [if_pos hp, if_pos hp, show c + k + 1 = c + 1 + k by ring, ih]
    · rw [if_neg hp, if_neg hp, ih]

theorem countFold_le {α : Type} (p : α → Bool) (l : List α) :
    ∀ c : Int, c ≤ countFold p l c := by
  induction l with
  | nil => intro c; exact le_refl c
  | cons a l ih =>
    intro c
    rw [countFold_cons]
    by_cases hp : p a = true
    · rw [if_pos hp]; exact le_trans (by omega) (ih (c + 1))
    · rw [if_neg hp]; exact ih c

theorem countFold_le_add_length {α : Type} (p : α → Bool) (l : List α) :
    ∀ c : Int, countFold p l c ≤ c + l.length := by
  induction l with
  | nil => intro c; simp [countFold]
  | cons a l ih =>
    intro c
    rw [countFold_cons]
    by_cases hp : p a = true
    · rw [if_pos hp]
      have := ih (c + 1)
      simp only [List.length_cons]
      omega
    · rw [if_neg hp]
      have := ih c
      simp only [List.length_cons]
      omega

theorem countFold_pos {α : Type} (p : α → Bool) {l : List α} {a : α}
    (ha : a ∈ l) (hpa : p a = true) : ∀ c : Int, c + 1 ≤ countFold p l c := by
  induction l with
  | nil => cases ha
  | cons b l ih =>
    intro c
    rw [countFold_cons]
    rcases List.mem_cons.mp ha with h | h
    · subst h
      rw [if_pos hpa]
      exact countFold_le p l (c + 1)
    · by_cases hp : p b = true
      · rw [if_pos hp]
        exact le_trans (by omega) (ih h (c + 1))
      · rw [if_neg hp]
        exact ih h c

theorem countFold_congr {α : Type} {p q : α → Bool} {l : List α}
    (hpq : ∀ a ∈ l, p a = q a) : ∀ c : Int, countFold p l c = countFold q l c := by
  induction l with
  | nil => intro c; rfl
  | cons a l ih =>
    intro c
    rw [countFold_cons, countFold_cons, hpq a (List.mem_cons_self a l)]
    exact ih (fun b hb => hpq b (List.mem_cons_of_mem a hb)) _

theorem mkGrid_xLength (w h : Int) (f : Int → Int → Bool) : (mkGrid w h f).xLength = w := rfl

theorem mkGrid_yLength (w h : Int) (f : Int → Int → Bool) : (mkGrid w h f).yLength = h := rfl

/-- Characterization of neighbours on a grid: whenever the center row index x
is in range, every row access succeeds — for every column index y, wrapped or
not — and the count is neighboursVal. -/
theorem neighbours_mkGrid {w h : Int} (f : Int → Int → Bool) {x : Int} (y : Int)
    (hw : 0 < w) (hh : 0 < h) (hx : 0 ≤ x ∧ x < w) :
    neighbours (mkGrid w h f) x y = some (neighboursVal w h f x y) := by
  have hkey : ∀ i : Int, -1 ≤ i → i ≤ 1 → ∀ s : Int,
      popRead (mkGrid w h f).population (jsRem (x + i + w) w) s
        = some (rowVal h f (jsRem (x + i + w) w) s) := by
    intro i hi1 hi2 s
    exact popRead_mkGrid h f (jsRem_range (by omega) hw) s
  have hc : ∀ s, popRead (mkGrid w h f).population x s = some (rowVal h f x s) :=
    fun s => popRead_mkGrid h f hx s
  have e1 := hkey (-1) (by norm_num) (by norm_num)
  have e2 := hkey 0 (by norm_num) (by norm_num)
  have e3 := hkey 1 (by norm_num) (by norm_num)
  simp only [neighbours, mkGrid_xLength, mkGrid_yLength, offsets9,
    List.foldlM_cons, List.foldlM_nil, e1, e2, e3, hc,
    Option.bind_eq_bind, Option.some_bind, Option.pure_def]
  simp only [neighboursVal, offsets9, countFold, List.foldl_cons, List.foldl_nil]

/-- Inside the grid the code's neighbour value is exactly the spec's count of
live cells among the 8 toroidally wrapped neighbour offsets. -/
theorem neighboursVal_eq_spec {w h : Int} (f : Int → Int → Bool) {x y : Int}
    (hw : 0 < w) (hh : 0 < h) (hin : InRange w h x y) :
    neighboursVal w h f x y = specNeighborCount w h f x y := by
  obtain ⟨hx0, hxw, hy0, hyh⟩ := hin
  have hgen : ∀ i j : Int, -1 ≤ i → i ≤ 1 → -1 ≤ j → j ≤ 1 →
      rowVal h f (jsRem (x + i + w) w) (jsRem (y + j + h) h)
        = f ((x + i) % w) ((y + j) % h) := by
    intro i j hi1 hi2 hj1 hj2
    have hxe : jsRem (x + i + w) w = (x + i) % w := by
      rw [jsRem_eq_emod (by omega) hw]
      have : x + i + w = x + i + 1 * w := by ring
      rw [this, Int.add_mul_emod_self]
    have hye : jsRem (y + j + h) h = (y + j) % h := by
      rw [jsRem_eq_emod (by omega) hh]
      have : y + j + h = y + j + 1 * h := by ring
      rw [this, Int.add_mul_emod_self]
    rw [hxe, hye]
    exact rowVal_of_range f _ ⟨Int.emod_nonneg _ (by omega), Int.emod_lt_of_pos _ hh⟩
  have hatom : ∀ ij : Int × Int, ij ∈ offsets9 →
      (fun ij : Int × Int => rowVal h f (jsRem (x + ij.1 + w) w) (jsRem (y + ij.2 + h) h)) ij
        = (fun ij : Int × Int => f ((x + ij.1) % w) ((y + ij.2) % h)) ij := by
    intro ij hij
    simp only [offsets9, List.mem_cons, List.not_mem_nil, or_false] at hij
    rcases hij with rfl | rfl | rfl | rfl | rfl | rfl | rfl | rfl | rfl
    all_goals exact hgen _ _ (by norm_num) (by norm_num) (by norm_num) (by norm_num)
  have hcenter : rowVal h f x y = f x y := rowVal_of_range f _ ⟨hy0, hyh⟩
  have hq00 : f ((x + 0) % w) ((y + 0) % h) = f x y := by
    rw [add_zero, add_zero, Int.emod_eq_of_lt hx0 hxw, Int.emod_eq_of_lt hy0 hyh]
  unfold neighboursVal specNeighborCount
  rw [countFold_congr hatom]
  have hsplit9 : (offsets9 : List (Int × Int))
      = [(-1,-1),(-1,0),(-1,1),(0,-1)] ++ ((0,0) :: [(0,1),(1,-1),(1,0),(1,1)]) := rfl
  have hsplit8 : (offsets8 : List (Int × Int))
      = [(-1,-1),(-1,0),(-1,1),(0,-1)] ++ [(0,1),(1,-1),(1,0),(1,1)] := rfl
  rw [hsplit9, hsplit8, countFold_append, countFold_append, countFold_cons]
  simp only [hq00, hcenter]
  by_cases hf : f x y = true
  · rw [if_pos hf, if_pos hf]
    rw [show (countFold (fun ij : Int × Int => f ((x + ij.1) % w) ((y + ij.2) % h))
        [(-1,-1),(-1,0),(-1,1),(0,-1)] 0) + 1
      = (countFold (fun ij : Int × Int => f ((x + ij.1) % w) ((y + ij.2) % h))
        [(-1,-1),(-1,0),(-1,1),(0,-1)] 0) + 1 from rfl]
    rw [countFold_shift]
    omega
  · simp only [hf, if_false, Bool.false_eq_true]

/-- C2: for every grid (1 × 1 included) and every in-range coordinate, the
neighbours method returns exactly the spec's count over the 8 non-center
toroidally wrapped offsets — the (0,0) offset is excluded regardless of the
center cell's own state — and the count lies in [0, 8]. -/
theorem neighbours_excludes_center (w h : Int) (f : Int → Int → Bool) (x y : Int)
    (hw : 0 < w) (hh : 0 < h) (hin : InRange w h x y) :
    neighbours (mkGrid w h f) x y = some (specNeighborCount w h f x y) ∧
    0 ≤ specNeighborCount w h f x y ∧ specNeighborCount w h f x y ≤ 8 := by
  refine ⟨?_, ?_, ?_⟩
  · rw [neighbours_mkGrid f y hw hh ⟨hin.1, hin.2.1⟩, neighboursVal_eq_spec f hw hh hin]
  · have := countFold_le (fun ij : Int × Int => f ((x + ij.1) % w) ((y + ij.2) % h)) offsets8 0
    simpa [specNeighborCount] using this
  · have := countFold_le_add_length
      (fun ij : Int × Int => f ((x + ij.1) % w) ((y + ij.2) % h)) offsets8 0
    simpa [specNeighborCount, offsets8] using this

/-- Witness for C2 on the 1 × 1 all-alive grid. -/
theorem neighbours_excludes_center_check :
    neighbours (mkGrid 1 1 (fun _ _ => true)) 0 0
      = some (specNeighborCount 1 1 (fun _ _ => true) 0 0) ∧
    0 ≤ specNeighborCount 1 1 (fun _ _ => true) 0 0 ∧
    specNeighborCount 1 1 (fun _ _ => true) 0 0 ≤ 8 :=
  neighbours_excludes_center 1 1 _ 0 0 (by decide) (by decide) (by decide)

/-- C3: neighbour counting is toroidal.  On every grid with width and height
at least 2, a live cell at (0,0) is counted by neighbours at the corners
(width-1, height-1), (width-1, 0) and (0, height-1); and the wrapped index
arithmetic of neighbours equals reduction modulo the grid length in both
directions, negative offsets included. -/
theorem neighbours_toroidal_wrap (w h : Int) (f : Int → Int → Bool)
    (hw : 2 ≤ w) (hh : 2 ≤ h) (h00 : f 0 0 = true) :
    (∃ n, neighbours (mkGrid w h f) (w-1) (h-1) = some n ∧ 1 ≤ n) ∧
    (∃ n, neighbours (mkGrid w h f) (w-1) 0 = some n ∧ 1 ≤ n) ∧
    (∃ n, neighbours (mkGrid w h f) 0 (h-1) = some n ∧ 1 ≤ n) ∧
    (∀ v i len : Int, 0 < len → 0 ≤ v → v < len → -1 ≤ i → i ≤ 1 →
      jsRem (v + i + len) len = (v + i) % len) := by
  refine ⟨⟨specNeighborCount w h f (w-1) (h-1), ?_, ?_⟩,
    ⟨specNeighborCount w h f (w-1) 0, ?_, ?_⟩,
    ⟨specNeighborCount w h f 0 (h-1), ?_, ?_⟩, ?_⟩
  · rw [neighbours_mkGrid f _ (by omega) (by omega) ⟨by omega, by omega⟩,
      neighboursVal_eq_spec f (by omega) (by omega) (by omega)]
  · have hmem : ((1,1) : Int × Int) ∈ offsets8 := by simp [offsets8]
    have hp : (fun ij : Int × Int => f ((w - 1 + ij.1) % w) ((h - 1 + ij.2) % h)) (1,1) = true := by
      show f ((w - 1 + 1) % w) ((h - 1 + 1) % h) = true
      rw [show w - 1 + 1 = w by ring, show h - 1 + 1 = h by ring, Int.emod_self, Int.emod_self]
      exact h00
    have := countFold_pos
      (fun ij : Int × Int => f ((w - 1 + ij.1) % w) ((h - 1 + ij.2) % h)) hmem hp 0
    simpa [specNeighborCount] using this
  · rw [neighbours_mkGrid f _ (by omega) (by omega) ⟨by omega, by omega⟩,
      neighboursVal_eq_spec f (by omega) (by omega) (by omega)]
  · have hmem : ((1,0) : Int × Int) ∈ offsets8 := by simp [offsets8]
    have hp : (fun ij : Int × Int => f ((w - 1 + ij.1) % w) ((0 + ij.2) % h)) (1,0) = true := by
      show f ((w - 1 + 1) % w) ((0 + 0) % h) = true
      rw [show w - 1 + 1 = w by ring, Int.emod_self]
      norm_num
      exact h00
    have := countFold_pos
      (fun ij : Int × Int => f ((w - 1 + ij.1) % w) ((0 + ij.2) % h)) hmem hp 0
    simpa [specNeighborCount] using this
  · rw [neighbours_mkGrid f _ (by omega) (by omega) ⟨by omega, by omega⟩,
      neighboursVal_eq_spec f (by omega) (by omega) (by omega)]
  · have hmem : ((0,1) : Int × Int) ∈ offsets8 := by simp [offsets8]
    have hp : (fun ij : Int × Int => f ((0 + ij.1) % w) ((h - 1 + ij.2) % h)) (0,1) = true := by
      show f ((0 + 0) % w) ((h - 1 + 1) % h) = true
      rw [show h - 1 + 1 = h by ring, Int.emod_self]
      norm_num
      exact h00
    have := countFold_pos
      (fun ij : Int × Int => f ((0 + ij.1) % w) ((h - 1 + ij.2) % h)) hmem hp 0
    simpa [specNeighborCount] using this
  · intro v i len hlen hv1 hv2 hi1 hi2
    rw [jsRem_eq_emod (by omega) hlen, show v + i + len = v + i + 1 * len by ring,
      Int.add_mul_emod_self]

/-- Witness for C3 on a 2 × 2 grid whose only live cell is (0,0). -/
theorem neighbours_toroidal_wrap_check :
    (∃ n, neighbours (mkGrid 2 2 (fun a b => decide (a = 0 ∧ b = 0))) 1 1 = some n ∧ 1 ≤ n) ∧
    (∃ n, neighbours (mkGrid 2 2 (fun a b => decide (a = 0 ∧ b = 0))) 1 0 = some n ∧ 1 ≤ n) ∧
    (∃ n, neighbours (mkGrid 2 2 (fun a b => decide (a = 0 ∧ b = 0))) 0 1 = some n ∧ 1 ≤ n) ∧
    (∀ v i len : Int, 0 < len → 0 ≤ v → v < len → -1 ≤ i → i ≤ 1 →
      jsRem (v + i + len) len = (v + i) % len) :=
  neighbours_toroidal_wrap 2 2 _ (by decide) (by decide) (by decide)

/-- C7 counterexample: neighbours is not total on out-of-range input.  With
x = width the center check reads population[x] without wrapping, which is
undefined, so the read of population[x][y] throws a TypeError (none). -/
theorem neighbours_throws_out_of_range :
    neighbours (mkGrid 1 1 (fun _ _ => true)) 1 0 = none := by decide

/-- C7 (amended): neighbours returns normally — no exception and no
out-of-bounds row access — for every x with 0 ≤ x < width and every integer
y, negative or out of range, because the scanned row indices are wrapped into
[0, width) and column reads of a present row cannot fail. -/
theorem neighbours_total_in_range (w h : Int) (f : Int → Int → Bool) (x y : Int)
    (hw : 0 < w) (hh : 0 < h) (hx0 : 0 ≤ x) (hxw : x < w) :
    ∃ n : Int, neighbours (mkGrid w h f) x y = some n :=
  ⟨neighboursVal w h f x y, neighbours_mkGrid f y hw hh ⟨hx0, hxw⟩⟩

/-- Witness for C7 (amended) at a wildly out-of-range y. -/
theorem neighbours_total_in_range_check :
    ∃ n : Int, neighbours (mkGrid 2 3 (fun a b => decide (a = b))) 1 (-7) = some n :=
  neighbours_total_in_range 2 3 _ 1 (-7) (by decide) (by decide) (by decide) (by decide)

/-- Membership in the loop index list is exactly being in range. -/
theorem mem_coords {w h : Int} {p : Int × Int} :
    p ∈ coords w h ↔ InRange w h p.1 p.2 := by
  obtain ⟨a, b⟩ := p
  rw [coords, List.mem_flatMap]
  constructor
  · rintro ⟨i, hi, hmem⟩
    rw [List.mem_map] at hmem
    obtain ⟨j, hj, heq⟩ := hmem
    rw [List.mem_range] at hi hj
    rw [Prod.mk.injEq] at heq
    obtain ⟨h1, h2⟩ := heq
    refine ⟨?_, ?_, ?_, ?_⟩ <;> omega
  · rintro ⟨h1, h2, h3, h4⟩
    refine ⟨a.toNat, ?_, ?_⟩
    · rw [List.mem_range]; omega
    · rw [List.mem_map]
      refine ⟨b.toNat, ?_, ?_⟩
      · rw [List.mem_range]; omega
      · rw [Prod.mk.injEq]
        constructor <;> omega

/-- Invariant of the cell loop of advance. -/
def FutInv (w h : Int) (f : Int → Int → Bool) (done : List (Int × Int)) (p : Pop) : Prop :=
  (∀ t : Int, (p t).isSome = true ↔ (0 ≤ t ∧ t < w)) ∧
  (∀ x y : Int, InRange w h x y →
    popRead p x y = some (if (x, y) ∈ done then nextCell w h f x y else f x y))

theorem live_step {w h : Int} {f : Int → Int → Bool} (hw : 0 < w) (hh : 0 < h)
    {done : List (Int × Int)} {p : Pop} {x y : Int}
    (hin : InRange w h x y) (hI : FutInv w h f done p) :
    ∃ p2, live (mkGrid w h f) p x y = some p2 ∧ FutInv w h f (done ++ [(x, y)]) p2 := by
  obtain ⟨hx0, hxw, hy0, hyh⟩ := hin
  obtain ⟨hshape, hread⟩ := hI
  obtain ⟨row, hrow⟩ : ∃ row, p x = some row :=
    Option.isSome_iff_exists.mp ((hshape x).mpr ⟨hx0, hxw⟩)
  have hn := neighbours_mkGrid f y hw hh ⟨hx0, hxw⟩
  have hb : popRead (mkGrid w h f).population x y = some (f x y) := by
    rw [popRead_mkGrid h f ⟨hx0, hxw⟩, rowVal_of_range f x ⟨hy0, hyh⟩]
  have hrowread : ∀ s : Int, popRead p x s = some (row s) := by
    intro s; simp [popRead, hrow]
  have hInvWrite : ∀ v : Bool, v = nextCell w h f x y →
      FutInv w h f (done ++ [(x, y)])
        (fun t => if t = x then some (fun s => if s = y then v else row s) else p t) := by
    intro v hv
    constructor
    · intro t
      by_cases ht : t = x
      · subst ht
        simp only [if_pos rfl, Option.isSome_some]
        exact ⟨fun _ => ⟨hx0, hxw⟩, fun _ => rfl⟩
      · simp only [if_neg ht]
        exact hshape t
    · intro a b hab
      by_cases ha : a = x
      · subst ha
        have hup : popRead
            (fun t => if t = a then some (fun s => if s = y then v else row s) else p t) a b
            = some (if b = y then v else row b) := by
          simp [popRead]
        rw [hup]
        by_cases hbe : b = y
        · rw [hbe]
          have hmem : ((a, y) : Int × Int) ∈ done ++ [(a, y)] := by simp
          rw [if_pos hmem, if_pos rfl, hv]
        · have hold := hread a b hab
          rw [hrowread b, Option.some_inj] at hold
          have hiff : (((a, b) : Int × Int) ∈ done ++ [(a, y)]) ↔ ((a, b) ∈ done) := by
            simp [hbe]
          rw [if_neg hbe, hold]
          by_cases hd : ((a, b) : Int × Int) ∈ done
          · rw [if_pos hd, if_pos (hiff.mpr hd)]
          · rw [if_neg hd, if_neg (fun hc => hd (hiff.mp hc))]
      · have hup : popRead
            (fun t => if t = x then some (fun s => if s = y then v else row s) else p t) a b
            = popRead p a b := by
          simp [popRead, ha]
        have hne : ¬(((a, b) : Int × Int) = (x, y)) := by
          intro hc; rw [Prod.mk.injEq] at hc; exact ha hc.1
        have hiff : (((a, b) : Int × Int) ∈ done ++ [(x, y)]) ↔ ((a, b) ∈ done) := by
          simp [hne]
        rw [hup, hread a b hab]
        by_cases hd : ((a, b) : Int × Int) ∈ done
        · rw [if_pos hd, if_pos (hiff.mpr hd)]
        · rw [if_neg hd, if_neg (fun hc => hd (hiff.mp hc))]
  have hInvSame : (¬(f x y = true ∧ (neighboursVal w h f x y < 2 ∨ neighboursVal w h f x y > 3)))
      → ¬(neighboursVal w h f x y = 3) → FutInv w h f (done ++ [(x, y)]) p := by
    intro hc1 hc2
    have hnext : nextCell w h f x y = f x y := by
      rw [nextCell, if_neg hc1, if_neg hc2]
    refine ⟨hshape, ?_⟩
    intro a b hab
    rw [hread a b hab]
    by_cases he : ((a, b) : Int × Int) = (x, y)
    · have hmem : ((a, b) : Int × Int) ∈ done ++ [(x, y)] := by simp [he]
      rw [if_pos hmem]
      by_cases hd : ((a, b) : Int × Int) ∈ done
      · rw [if_pos hd]
      · rw [if_neg hd]
        rw [Prod.mk.injEq] at he
        rw [he.1, he.2, hnext]
    · have hiff : (((a, b) : Int × Int) ∈ done ++ [(x, y)]) ↔ ((a, b) ∈ done) := by
        simp [he]
      by_cases hd : ((a, b) : Int × Int) ∈ done
      · rw [if_pos hd, if_pos (hiff.mpr hd)]
      · rw [if_neg hd, if_neg (fun hc => hd (hiff.mp hc))]
  simp only [live, hn, hb, Option.bind_eq_bind, Option.some_bind]
  by_cases hc1 : f x y = true ∧ (neighboursVal w h f x y < 2 ∨ neighboursVal w h f x y > 3)
  · rw [if_pos hc1, popWrite_spec hrow]
    refine ⟨_, rfl, hInvWrite false ?_⟩
    rw [nextCell, if_pos hc1]
  · rw [if_neg hc1]
    by_cases hc2 : neighboursVal w h f x y = 3
    · rw [if_pos hc2, popWrite_spec hrow]
      refine ⟨_, rfl, hInvWrite true ?_⟩
      rw [nextCell, if_neg hc1, if_pos hc2]
    · rw [if_neg hc2]
      exact ⟨p, rfl, hInvSame hc1 hc2⟩
theorem live_fold {w h : Int} {f : Int → Int → Bool} (hw : 0 < w) (hh : 0 < h) :
    ∀ (L done : List (Int × Int)) (p : Pop),
      (∀ q ∈ L, InRange w h q.1 q.2) → FutInv w h f done p →
      ∃ p2, L.foldlM (fun fu ij => live (mkGrid w h f) fu ij.1 ij.2) p = some p2 ∧
        FutInv w h f (done ++ L) p2 := by
  intro L
  induction L with
  | nil =>
    intro done p _ hI
    exact ⟨p, rfl, by simpa using hI⟩
  | cons q L ih =>
    obtain ⟨a, b⟩ := q
    intro done p hL hI
    obtain ⟨p1, h1, hI1⟩ :=
      live_step hw hh (hL (a, b) (List.mem_cons_self _ _)) hI
    obtain ⟨p2, h2, hI2⟩ :=
      ih (done ++ [(a, b)]) p1 (fun r hr => hL r (List.mem_cons_of_mem _ hr)) hI1
    refine ⟨p2, ?_, ?_⟩
    · rw [List.foldlM_cons]
      simp only [h1, Option.bind_eq_bind, Option.some_bind]
      exact h2
    · have heq : (done ++ [(a, b)]) ++ L = done ++ (a, b) :: L := by simp
      rw [heq] at hI2
      exact hI2

theorem diff_fold {w h : Int} {f : Int → Int → Bool} {p : Pop}
    (hp : ∀ x y : Int, InRange w h x y → popRead p x y = some (nextCell w h f x y)) :
    ∀ (L : List (Int × Int)) (acc : List (Int × Int × Bool)),
      (∀ q ∈ L, InRange w h q.1 q.2) →
      L.foldlM (fun acc ij => do
          let oldv ← popRead (mkGrid w h f).population ij.1 ij.2
          let newv ← popRead p ij.1 ij.2
          pure (if oldv != newv then acc ++ [(ij.1, ij.2, newv)] else acc)) acc
        = some (acc ++ L.filterMap (fun ij =>
            if f ij.1 ij.2 != nextCell w h f ij.1 ij.2
            then some (ij.1, ij.2, nextCell w h f ij.1 ij.2) else none)) := by
  intro L
  induction L with
  | nil => intro acc _; simp
  | cons q L ih =>
    obtain ⟨a, b⟩ := q
    intro acc hL
    have hab : InRange w h a b := hL (a, b) (List.mem_cons_self _ _)
    have hold : popRead (mkGrid w h f).population a b = some (f a b) := by
      rw [popRead_mkGrid h f ⟨hab.1, hab.2.1⟩, rowVal_of_range f a ⟨hab.2.2.1, hab.2.2.2⟩]
    have hnew := hp a b hab
    have ih2 := ih (if (f a b != nextCell w h f a b) = true
        then acc ++ [(a, b, nextCell w h f a b)] else acc)
      (fun r hr => hL r (List.mem_cons_of_mem _ hr))
    rw [List.foldlM_cons]
    simp only [Option.bind_eq_bind, Option.some_bind, Option.pure_def] at ih2 ⊢
    simp only [hold, hnew, Option.some_bind]
    rw [ih2, List.filterMap_cons]
    by_cases hc : (f a b != nextCell w h f a b) = true
    · rw [if_pos hc, if_pos hc]
      simp
    · rw [if_neg hc, if_neg hc]

theorem advance_mkGrid {w h : Int} (f : Int → Int → Bool) (hw : 0 < w) (hh : 0 < h) :
    ∃ p2, advance (mkGrid w h f) = some (⟨w, h, p2⟩, changeList w h f) ∧
      (∀ t : Int, (p2 t).isSome = true ↔ (0 ≤ t ∧ t < w)) ∧
      (∀ x y : Int, InRange w h x y → popRead p2 x y = some (nextCell w h f x y)) := by
  have hI0 : FutInv w h f [] (mkGrid w h f).population := by
    constructor
    · intro t
      simp only [mkGrid]
      by_cases ht : 0 ≤ t ∧ t < w
      · simp [ht]
      · simp [ht]
    · intro a b hab
      rw [popRead_mkGrid h f ⟨hab.1, hab.2.1⟩, rowVal_of_range f a ⟨hab.2.2.1, hab.2.2.2⟩]
      simp
  have hLin : ∀ q ∈ coords w h, InRange w h q.1 q.2 := fun q hq => mem_coords.mp hq
  obtain ⟨p2, hfold, hI⟩ := live_fold hw hh (coords w h) [] _ hLin hI0
  rw [List.nil_append] at hI
  obtain ⟨hshape2, hread2⟩ := hI
  have hread2' : ∀ x y : Int, InRange w h x y → popRead p2 x y = some (nextCell w h f x y) := by
    intro a b hab
    have hm : ((a, b) : Int × Int) ∈ coords w h := mem_coords.mpr hab
    have := hread2 a b hab
    rw [if_pos hm] at this
    exact this
  refine ⟨p2, ?_, hshape2, hread2'⟩
  have hdiff := diff_fold hread2' (coords w h) [] hLin
  simp only [Option.bind_eq_bind, Option.some_bind, Option.pure_def] at hdiff
  simp only [advance, mkGrid_xLength, mkGrid_yLength]
  rw [hfold]
  simp only [Option.bind_eq_bind, Option.some_bind, Option.pure_def]
  rw [hdiff]
  simp only [Option.some_bind, List.nil_append, changeList]

/-- The live update equals the four-case Game of Life rule. -/
theorem nextCell_rule (w h : Int) (f : Int → Int → Bool) (x y : Int) :
    nextCell w h f x y =
      if f x y = true
      then decide (neighboursVal w h f x y = 2 ∨ neighboursVal w h f x y = 3)
      else decide (neighboursVal w h f x y = 3) := by
  rw [nextCell]
  by_cases hf : f x y = true
  · rw [if_pos hf]
    by_cases hc : f x y = true ∧ (neighboursVal w h f x y < 2 ∨ neighboursVal w h f x y > 3)
    · rw [if_pos hc]
      have hno : ¬(neighboursVal w h f x y = 2 ∨ neighboursVal w h f x y = 3) := by
        rcases hc with ⟨-, hn⟩; omega
      simp [hno]
    · rw [if_neg hc]
      have h23 : neighboursVal w h f x y = 2 ∨ neighboursVal w h f x y = 3 := by
        rcases not_and_or.mp hc with hc1 | hc2
        · exact absurd hf hc1
        · omega
      by_cases hc2 : neighboursVal w h f x y = 3
      · simp [hc2]
      · rw [if_neg hc2, hf]
        have h2 : neighboursVal w h f x y = 2 := by omega
        simp [h2]
  · rw [if_neg hf]
    have hc : ¬(f x y = true ∧ (neighboursVal w h f x y < 2 ∨ neighboursVal w h f x y > 3)) := by
      intro hcc; exact hf hcc.1
    rw [if_neg hc]
    by_cases hc2 : neighboursVal w h f x y = 3
    · simp [hc2]
    · rw [if_neg hc2]
      have hfv : f x y = false := by
        cases hfl : f x y
        · rfl
        · exact absurd hfl hf
      simp [hfv, hc2]

/-- Membership in the reported change events. -/
theorem mem_changeList {w h : Int} {f : Int → Int → Bool} {x y : Int} {v : Bool} :
    (x, y, v) ∈ changeList w h f ↔
      (InRange w h x y ∧ f x y ≠ nextCell w h f x y ∧ v = nextCell w h f x y) := by
  rw [changeList, List.mem_filterMap]
  constructor
  · rintro ⟨⟨a, b⟩, hmem, heq⟩
    by_cases hc : (f a b != nextCell w h f a b) = true
    · rw [if_pos hc, Option.some_inj] at heq
      simp only [Prod.mk.injEq] at heq
      obtain ⟨rfl, rfl, hv⟩ := heq
      exact ⟨mem_coords.mp hmem, bne_iff_ne.mp hc, hv.symm⟩
    · rw [if_neg hc] at heq
      cases heq
  · rintro ⟨hin, hne, rfl⟩
    refine ⟨(x, y), mem_coords.mpr hin, ?_⟩
    rw [if_pos (bne_iff_ne.mpr hne)]

/-- C1: one advance() step applies the Game of Life rule to every cell, with
the neighbour count n read from the pre-advance generation: an alive cell
survives exactly when n is 2 or 3 (so it dies for n in 0..1 or 4..8), and a
dead cell becomes alive exactly when n is 3 (and stays dead otherwise). -/
theorem advance_applies_rule (w h : Int) (f : Int → Int → Bool) (x y n : Int)
    (hw : 0 < w) (hh : 0 < h) (hin : InRange w h x y)
    (hn : neighbours (mkGrid w h f) x y = some n) :
    ∃ g2 ch, advance (mkGrid w h f) = some (g2, ch) ∧
      readCell g2 x y
        = some (if f x y = true then decide (n = 2 ∨ n = 3) else decide (n = 3)) := by
  obtain ⟨p2, hadv, hshape, hread⟩ := advance_mkGrid f hw hh
  have hn2 : n = neighboursVal w h f x y := by
    rw [neighbours_mkGrid f y hw hh ⟨hin.1, hin.2.1⟩, Option.some_inj] at hn
    exact hn.symm
  refine ⟨_, _, hadv, ?_⟩
  show popRead p2 x y = _
  rw [hread x y hin, hn2, nextCell_rule]

/-- Witness for C1: center of a full row on the 3 by 3 torus has count 2. -/
theorem advance_applies_rule_check :
    ∃ g2 ch, advance (mkGrid 3 3 (fun _ b => decide (b = 1))) = some (g2, ch) ∧
      readCell g2 1 1 = some (if (fun _ b : Int => decide (b = 1)) 1 1 = true
        then decide ((2 : Int) = 2 ∨ (2 : Int) = 3) else decide ((2 : Int) = 3)) :=
  advance_applies_rule 3 3 _ 1 1 2 (by decide) (by decide) (by decide) (by decide)
/-- C4: advance() reports exactly the cells whose state changed: the populate
callback — the event (x, y, true) — fires precisely for cells that went dead
to alive, the kill callback — the event (x, y, false) — precisely for cells
that went alive to dead, and no event fires for an unchanged cell.  Events
only concern in-range coordinates. -/
theorem advance_reports_changes (w h : Int) (f : Int → Int → Bool) (hw : 0 < w) (hh : 0 < h) :
    ∃ g2 ch, advance (mkGrid w h f) = some (g2, ch) ∧
      (∀ (x y : Int) (v : Bool), (x, y, v) ∈ ch → InRange w h x y) ∧
      (∀ x y : Int, InRange w h x y →
        (((x, y, true) ∈ ch) ↔ (f x y = false ∧ readCell g2 x y = some true)) ∧
        (((x, y, false) ∈ ch) ↔ (f x y = true ∧ readCell g2 x y = some false)) ∧
        (readCell g2 x y = some (f x y) → ∀ v : Bool, (x, y, v) ∉ ch)) := by
  obtain ⟨p2, hadv, hshape, hread⟩ := advance_mkGrid f hw hh
  refine ⟨_, _, hadv, ?_, ?_⟩
  · intro x y v hv
    exact (mem_changeList.mp hv).1
  · intro x y hin
    have hcell : readCell ⟨w, h, p2⟩ x y = some (nextCell w h f x y) := hread x y hin
    refine ⟨?_, ?_, ?_⟩
    · rw [mem_changeList, hcell]
      constructor
      · rintro ⟨-, hne, hv⟩
        rw [← hv]
        refine ⟨?_, rfl⟩
        cases hfl : f x y
        · rfl
        · rw [hfl, ← hv] at hne; exact absurd rfl hne
      · rintro ⟨hf, hv⟩
        rw [Option.some_inj] at hv
        exact ⟨hin, by rw [hf, hv]; exact Bool.false_ne_true, hv.symm⟩
    · rw [mem_changeList, hcell]
      constructor
      · rintro ⟨-, hne, hv⟩
        rw [← hv]
        refine ⟨?_, rfl⟩
        cases hfl : f x y
        · rw [hfl, ← hv] at hne; exact absurd rfl hne
        · rfl
      · rintro ⟨hf, hv⟩
        rw [Option.some_inj] at hv
        refine ⟨hin, ?_, hv.symm⟩
        rw [hf, hv]
        exact (by decide)
    · intro hsame v hv
      rw [hcell, Option.some_inj] at hsame
      exact (mem_changeList.mp hv).2.1 hsame.symm

/-- Witness for C4 on the 3 by 3 torus with one full row alive. -/
theorem advance_reports_changes_check :
    ∃ g2 ch, advance (mkGrid 3 3 (fun _ b => decide (b = 1))) = some (g2, ch) ∧
      (∀ (x y : Int) (v : Bool), (x, y, v) ∈ ch → InRange 3 3 x y) ∧
      (∀ x y : Int, InRange 3 3 x y →
        (((x, y, true) ∈ ch) ↔ ((fun _ b : Int => decide (b = 1)) x y = false
          ∧ readCell g2 x y = some true)) ∧
        (((x, y, false) ∈ ch) ↔ ((fun _ b : Int => decide (b = 1)) x y = true
          ∧ readCell g2 x y = some false)) ∧
        (readCell g2 x y = some ((fun _ b : Int => decide (b = 1)) x y)
          → ∀ v : Bool, (x, y, v) ∉ ch)) :=
  advance_reports_changes 3 3 _ (by decide) (by decide)

/-- Congruence of the step function in the cell contents. -/
theorem nextCell_congr {w h : Int} {f f2 : Int → Int → Bool} (hw : 0 < w) (hh : 0 < h)
    (hagree : ∀ a b : Int, InRange w h a b → f a b = f2 a b)
    {x y : Int} (hin : InRange w h x y) :
    nextCell w h f x y = nextCell w h f2 x y := by
  obtain ⟨hx0, hxw, hy0, hyh⟩ := hin
  have hgen : ∀ i j : Int, -1 ≤ i → i ≤ 1 → -1 ≤ j → j ≤ 1 →
      rowVal h f (jsRem (x + i + w) w) (jsRem (y + j + h) h)
        = rowVal h f2 (jsRem (x + i + w) w) (jsRem (y + j + h) h) := by
    intro i j hi1 hi2 hj1 hj2
    obtain ⟨ht0, htw⟩ := jsRem_range (a := x + i + w) (by omega) hw
    obtain ⟨hs0, hsh⟩ := jsRem_range (a := y + j + h) (by omega) hh
    rw [rowVal_of_range f _ ⟨hs0, hsh⟩, rowVal_of_range f2 _ ⟨hs0, hsh⟩]
    exact hagree _ _ ⟨ht0, htw, hs0, hsh⟩
  have hatom : ∀ ij : Int × Int, ij ∈ offsets9 →
      (fun ij : Int × Int =>
        rowVal h f (jsRem (x + ij.1 + w) w) (jsRem (y + ij.2 + h) h)) ij
        = (fun ij : Int × Int =>
        rowVal h f2 (jsRem (x + ij.1 + w) w) (jsRem (y + ij.2 + h) h)) ij := by
    intro ij hij
    simp only [offsets9, List.mem_cons, List.not_mem_nil, or_false] at hij
    rcases hij with rfl | rfl | rfl | rfl | rfl | rfl | rfl | rfl | rfl
    all_goals exact hgen _ _ (by norm_num) (by norm_num) (by norm_num) (by norm_num)
  have hcenter : rowVal h f x y = rowVal h f2 x y := by
    rw [rowVal_of_range f x ⟨hy0, hyh⟩, rowVal_of_range f2 x ⟨hy0, hyh⟩]
    exact hagree x y ⟨hx0, hxw, hy0, hyh⟩
  have hnv : neighboursVal w h f x y = neighboursVal w h f2 x y := by
    rw [neighboursVal, neighboursVal, countFold_congr hatom, hcenter]
  rw [nextCell, nextCell, hnv, hagree x y ⟨hx0, hxw, hy0, hyh⟩]

/-- C5: advance() is deterministic in the grid state: two grids whose
populations agree cell for cell advance to populations that again agree cell
for cell, and each new cell value is nextCell of the pre-advance contents
alone — a function of the saved current generation, never of the partially
built future buffer. -/
theorem advance_deterministic (w h : Int) (f f2 : Int → Int → Bool)
    (hw : 0 < w) (hh : 0 < h)
    (hagree : ∀ x y : Int, InRange w h x y → f x y = f2 x y) :
    ∃ g1 ch1 g2 ch2,
      advance (mkGrid w h f) = some (g1, ch1) ∧
      advance (mkGrid w h f2) = some (g2, ch2) ∧
      (∀ x y : Int, InRange w h x y →
        readCell g1 x y = some (nextCell w h f x y) ∧
        readCell g2 x y = readCell g1 x y) := by
  obtain ⟨p1, hadv1, hshape1, hread1⟩ := advance_mkGrid f hw hh
  obtain ⟨p2, hadv2, hshape2, hread2⟩ := advance_mkGrid f2 hw hh
  refine ⟨_, _, _, _, hadv1, hadv2, ?_⟩
  intro x y hin
  refine ⟨hread1 x y hin, ?_⟩
  show popRead p2 x y = popRead p1 x y
  rw [hread1 x y hin, hread2 x y hin, nextCell_congr hw hh hagree hin]

/-- Witness for C5 on the empty 2 by 2 grid. -/
theorem advance_deterministic_check :
    ∃ g1 ch1 g2 ch2,
      advance (mkGrid 2 2 (fun _ _ => false)) = some (g1, ch1) ∧
      advance (mkGrid 2 2 (fun _ _ => false)) = some (g2, ch2) ∧
      (∀ x y : Int, InRange 2 2 x y →
        readCell g1 x y = some (nextCell 2 2 (fun _ _ => false) x y) ∧
        readCell g2 x y = readCell g1 x y) :=
  advance_deterministic 2 2 (fun _ _ => false) (fun _ _ => false)
    (by decide) (by decide) (fun _ _ _ => rfl)

/-- Invariant of the cell loop of randomize: selected processed cells were set
alive, unselected processed cells and unprocessed cells are untouched. -/
def RandInv (w h : Int) (f : Int → Int → Bool) (draws : Int → Int → ℚ)
    (done : List (Int × Int)) (p : Pop) : Prop :=
  (∀ t : Int, (p t).isSome = true ↔ (0 ≤ t ∧ t < w)) ∧
  (∀ x y : Int, InRange w h x y →
    popRead p x y = some (if (x, y) ∈ done then (f x y || jsCoin (draws x y)) else f x y))

theorem randomize_step {w h : Int} {f : Int → Int → Bool} {draws : Int → Int → ℚ}
    {done : List (Int × Int)} {p : Pop} {x y : Int}
    (hin : InRange w h x y) (hI : RandInv w h f draws done p) :
    ∃ p2, (if jsCoin (draws x y) = true then popWrite p x y true else pure p) = some p2 ∧
      RandInv w h f draws (done ++ [(x, y)]) p2 := by
  obtain ⟨hx0, hxw, hy0, hyh⟩ := hin
  obtain ⟨hshape, hread⟩ := hI
  obtain ⟨row, hrow⟩ : ∃ row, p x = some row :=
    Option.isSome_iff_exists.mp ((hshape x).mpr ⟨hx0, hxw⟩)
  have hrowread : ∀ s : Int, popRead p x s = some (row s) := by
    intro s; simp [popRead, hrow]
  by_cases hcoin : jsCoin (draws x y) = true
  · rw [if_pos hcoin, popWrite_spec hrow]
    refine ⟨_, rfl, ?_, ?_⟩
    · intro t
      by_cases ht : t = x
      · subst ht
        simp only [if_pos rfl, Option.isSome_some]
        exact ⟨fun _ => ⟨hx0, hxw⟩, fun _ => rfl⟩
      · simp only [if_neg ht]
        exact hshape t
    · intro a b hab
      by_cases ha : a = x
      · subst ha
        have hup : popRead
            (fun t => if t = a then some (fun s => if s = y then true else row s) else p t) a b
            = some (if b = y then true else row b) := by
          simp [popRead]
        rw [hup]
        by_cases hbe : b = y
        · rw [hbe]
          have hmem : ((a, y) : Int × Int) ∈ done ++ [(a, y)] := by simp
          rw [if_pos hmem, if_pos rfl, hcoin, Bool.or_true]
        · have hold := hread a b hab
          rw [hrowread b, Option.some_inj] at hold
          have hiff : (((a, b) : Int × Int) ∈ done ++ [(a, y)]) ↔ ((a, b) ∈ done) := by
            simp [hbe]
          rw [if_neg hbe, hold]
          by_cases hd : ((a, b) : Int × Int) ∈ done
          · rw [if_pos hd, if_pos (hiff.mpr hd)]
          · rw [if_neg hd, if_neg (fun hc => hd (hiff.mp hc))]
      · have hup : popRead
            (fun t => if t = x then some (fun s => if s = y then true else row s) else p t) a b
            = popRead p a b := by
          simp [popRead, ha]
        have hne : ¬(((a, b) : Int × Int) = (x, y)) := by
          intro hc; rw [Prod.mk.injEq] at hc; exact ha hc.1
        have hiff : (((a, b) : Int × Int) ∈ done ++ [(x, y)]) ↔ ((a, b) ∈ done) := by
          simp [hne]
        rw [hup, hread a b hab]
        by_cases hd : ((a, b) : Int × Int) ∈ done
        · rw [if_pos hd, if_pos (hiff.mpr hd)]
        · rw [if_neg hd, if_neg (fun hc => hd (hiff.mp hc))]
  · rw [if_neg hcoin]
    have hcf : jsCoin (draws x y) = false := by
      cases hcl : jsCoin (draws x y)
      · rfl
      · exact absurd hcl hcoin
    refine ⟨p, rfl, hshape, ?_⟩
    intro a b hab
    rw [hread a b hab]
    by_cases he : ((a, b) : Int × Int) = (x, y)
    · have hmem : ((a, b) : Int × Int) ∈ done ++ [(x, y)] := by simp [he]
      rw [if_pos hmem]
      by_cases hd : ((a, b) : Int × Int) ∈ done
      · rw [if_pos hd]
      · rw [if_neg hd]
        rw [Prod.mk.injEq] at he
        rw [he.1, he.2, hcf, Bool.or_false]
    · have hiff : (((a, b) : Int × Int) ∈ done ++ [(x, y)]) ↔ ((a, b) ∈ done) := by
        simp [he]
      by_cases hd : ((a, b) : Int × Int) ∈ done
      · rw [if_pos hd, if_pos (hiff.mpr hd)]
      · rw [if_neg hd, if_neg (fun hc => hd (hiff.mp hc))]

theorem randomize_fold {w h : Int} {f : Int → Int → Bool} {draws : Int → Int → ℚ} :
    ∀ (L done : List (Int × Int)) (p : Pop),
      (∀ q ∈ L, InRange w h q.1 q.2) → RandInv w h f draws done p →
      ∃ p2, L.foldlM (fun p ij =>
          if jsCoin (draws ij.1 ij.2) = true then popWrite p ij.1 ij.2 true else pure p) p
        = some p2 ∧ RandInv w h f draws (done ++ L) p2 := by
  intro L
  induction L with
  | nil =>
    intro done p _ hI
    exact ⟨p, rfl, by simpa using hI⟩
  | cons q L ih =>
    obtain ⟨a, b⟩ := q
    intro done p hL hI
    obtain ⟨p1, h1, hI1⟩ :=
      randomize_step (hL (a, b) (List.mem_cons_self _ _)) hI
    obtain ⟨p2, h2, hI2⟩ :=
      ih (done ++ [(a, b)]) p1 (fun r hr => hL r (List.mem_cons_of_mem _ hr)) hI1
    refine ⟨p2, ?_, ?_⟩
    · rw [List.foldlM_cons]
      simp only [h1, Option.bind_eq_bind, Option.some_bind]
      exact h2
    · have heq : (done ++ [(a, b)]) ++ L = done ++ (a, b) :: L := by simp
      rw [heq] at hI2
      exact hI2

/-- Randomize on a grid succeeds and each in-range cell ends as the or of its
old value and its coin. -/
theorem randomize_mkGrid {w h : Int} (f : Int → Int → Bool) (draws : Int → Int → ℚ)
    (hw : 0 < w) (hh : 0 < h) :
    ∃ p2, randomize (mkGrid w h f) draws = some ⟨w, h, p2⟩ ∧
      (∀ x y : Int, InRange w h x y →
        popRead p2 x y = some (f x y || jsCoin (draws x y))) := by
  have hI0 : RandInv w h f draws [] (mkGrid w h f).population := by
    constructor
    · intro t
      simp only [mkGrid]
      by_cases ht : 0 ≤ t ∧ t < w
      · simp [ht]
      · simp [ht]
    · intro a b hab
      rw [popRead_mkGrid h f ⟨hab.1, hab.2.1⟩, rowVal_of_range f a ⟨hab.2.2.1, hab.2.2.2⟩]
      simp
  have hLin : ∀ q ∈ coords w h, InRange w h q.1 q.2 := fun q hq => mem_coords.mp hq
  obtain ⟨p2, hfold, hI⟩ := randomize_fold (coords w h) [] _ hLin hI0
  rw [List.nil_append] at hI
  obtain ⟨hshape2, hread2⟩ := hI
  refine ⟨p2, ?_, ?_⟩
  · simp only [randomize, mkGrid_xLength, mkGrid_yLength]
    rw [hfold]
    simp only [Option.bind_eq_bind, Option.some_bind, Option.pure_def]
  · intro a b hab
    have hm : ((a, b) : Int × Int) ∈ coords w h := mem_coords.mpr hab
    have := hread2 a b hab
    rw [if_pos hm] at this
    exact this

/-- Pointwise description of the alive draws: the five middle tenths. -/
theorem aliveMeasureSet_mem_iff {r : ℝ} :
    r ∈ aliveMeasureSet ↔
      ∃ k : ℕ, k < 5 ∧ ((2 * (k : ℝ) + 1) / 10) ≤ r ∧ r < ((2 * (k : ℝ) + 2) / 10) := by
  constructor
  · rintro ⟨⟨hr0, hr1⟩, hcond⟩
    have hfl : ⌊r * 10 / 2⌋ = ⌊r * 5⌋ := by
      have : r * 10 / 2 = r * 5 := by ring
      rw [this]
    rw [hfl] at hcond
    have hm0 : 0 ≤ ⌊r * 5⌋ := Int.floor_nonneg.mpr (by linarith)
    have hm5 : ⌊r * 5⌋ < 5 := by
      rw [Int.floor_lt]
      push_cast
      linarith
    have hle : (⌊r * 5⌋ : ℝ) ≤ r * 5 := Int.floor_le _
    have hlt : r * 5 < ⌊r * 5⌋ + 1 := Int.lt_floor_add_one _
    have hu0 : (0 : ℝ) ≤ r * 10 - 2 * (⌊r * 5⌋ : ℝ) := by linarith
    have hu2 : r * 10 - 2 * (⌊r * 5⌋ : ℝ) < 2 := by linarith
    have hfl0 : 0 ≤ ⌊r * 10 - 2 * (⌊r * 5⌋ : ℝ)⌋ := Int.floor_nonneg.mpr hu0
    have hge1 : (1 : ℝ) ≤ r * 10 - 2 * (⌊r * 5⌋ : ℝ) := by
      have h1 : 1 ≤ ⌊r * 10 - 2 * (⌊r * 5⌋ : ℝ)⌋ := by omega
      have := Int.le_floor.mp h1
      exact_mod_cast this
    refine ⟨(⌊r * 5⌋).toNat, by omega, ?_, ?_⟩
    · have hc : ((⌊r * 5⌋).toNat : ℝ) = (⌊r * 5⌋ : ℝ) := by
        exact_mod_cast congrArg Int.cast (Int.toNat_of_nonneg hm0)
      rw [hc]
      linarith
    · have hc : ((⌊r * 5⌋).toNat : ℝ) = (⌊r * 5⌋ : ℝ) := by
        exact_mod_cast congrArg Int.cast (Int.toNat_of_nonneg hm0)
      rw [hc]
      linarith
  · rintro ⟨k, hk5, h1, h2⟩
    have hk : (k : ℝ) ≤ 4 := by
      have : (k : ℝ) < 5 := by exact_mod_cast hk5
      have : (k : ℕ) ≤ 4 := by omega
      exact_mod_cast this
    have hk0 : (0 : ℝ) ≤ (k : ℝ) := Nat.cast_nonneg k
    have hr0 : (0 : ℝ) ≤ r := by
      have : (0 : ℝ) ≤ (2 * (k : ℝ) + 1) / 10 := by positivity
      linarith
    have hr1 : r < 1 := by
      have : (2 * (k : ℝ) + 2) / 10 ≤ 1 := by linarith
      linarith
    have hfl : ⌊r * 10 / 2⌋ = ⌊r * 5⌋ := by
      have : r * 10 / 2 = r * 5 := by ring
      rw [this]
    have hfk : ⌊r * 5⌋ = (k : ℤ) := by
      rw [Int.floor_eq_iff]
      constructor
      · push_cast
        linarith
      · push_cast
        linarith
    refine ⟨⟨hr0, hr1⟩, ?_⟩
    rw [hfl, hfk]
    have hone : ⌊r * 10 - 2 * ((k : ℤ) : ℝ)⌋ = 1 := by
      rw [Int.floor_eq_iff]
      constructor
      · push_cast
        linarith
      · push_cast
        linarith
    rw [hone]
    norm_num
/-- The alive draw set is a finite union of five intervals. -/
theorem aliveMeasureSet_eq_biUnion :
    aliveMeasureSet =
      ⋃ k ∈ Finset.range 5, Set.Ico ((2 * (k : ℝ) + 1) / 10) ((2 * (k : ℝ) + 2) / 10) := by
  ext r
  rw [aliveMeasureSet_mem_iff]
  simp only [Set.mem_iUnion, Finset.mem_range, Set.mem_Ico]
  constructor
  · rintro ⟨k, hk, h1, h2⟩
    exact ⟨k, hk, h1, h2⟩
  · rintro ⟨k, hk, h1, h2⟩
    exact ⟨k, hk, h1, h2⟩

/-- The alive draws have Lebesgue measure exactly one half. -/
theorem volume_aliveMeasureSet : MeasureTheory.volume aliveMeasureSet = 1 / 2 := by
  rw [aliveMeasureSet_eq_biUnion]
  rw [MeasureTheory.measure_biUnion_finset ?hd ?hm]
  case hm => exact fun k _ => measurableSet_Ico
  case hd =>
    intro a ha b hb hne
    rcases hne.lt_or_lt with hlt | hlt
    · apply Set.disjoint_left.mpr
      intro r hr1 hr2
      simp only [Set.mem_Ico] at hr1 hr2
      have hab : (a : ℝ) + 1 ≤ (b : ℝ) := by exact_mod_cast hlt
      have := hr1.2
      have := hr2.1
      linarith
    · apply Set.disjoint_right.mpr
      intro r hr1 hr2
      simp only [Set.mem_Ico] at hr1 hr2
      have hab : (b : ℝ) + 1 ≤ (a : ℝ) := by exact_mod_cast hlt
      have := hr1.2
      have := hr2.1
      linarith
  have hterm : ∀ k ∈ Finset.range 5,
      MeasureTheory.volume (Set.Ico ((2 * (k : ℝ) + 1) / 10) ((2 * (k : ℝ) + 2) / 10))
        = ENNReal.ofReal (1 / 10) := by
    intro k _
    rw [Real.volume_Ico]
    congr 1
    ring
  rw [Finset.sum_congr rfl hterm, Finset.sum_const, Finset.card_range]
  rw [nsmul_eq_mul]
  have h5 : ((5 : ℕ) : ENNReal) = ENNReal.ofReal (5 : ℝ) := by
    norm_num
  rw [h5, ← ENNReal.ofReal_mul (by norm_num)]
  rw [show (5 : ℝ) * (1 / 10) = 1 / 2 by norm_num]
  rw [ENNReal.ofReal_div_of_pos (by norm_num), ENNReal.ofReal_one, ENNReal.ofReal_ofNat]
/-- The computable coin on a rational draw in [0, 1) agrees with membership in
the idealized real draw set. -/
theorem jsCoin_iff_mem {q : ℚ} (h0 : 0 ≤ q) (h1 : q < 1) :
    jsCoin q = true ↔ ((q : ℝ) ∈ aliveMeasureSet) := by
  have htr : truncQ ((q * 10) / 2) = ⌊(q * 10) / 2⌋ := by
    rw [truncQ, if_pos (by positivity)]
  have hfloor : ⌊(q : ℝ) * 10 / 2⌋ = ⌊q * 10 / 2⌋ := by
    rw [show ((q : ℝ) * 10 / 2) = ((q * 10 / 2 : ℚ) : ℝ) by push_cast; ring]
    exact Rat.floor_cast _
  have hout : ⌊(q : ℝ) * 10 - 2 * ((⌊(q : ℝ) * 10 / 2⌋ : ℤ) : ℝ)⌋
      = ⌊jsRemQ (q * 10) 2⌋ := by
    rw [hfloor, jsRemQ, htr]
    rw [show ((q : ℝ) * 10 - 2 * ((⌊q * 10 / 2⌋ : ℤ) : ℝ))
        = ((q * 10 - 2 * ((⌊q * 10 / 2⌋ : ℤ) : ℚ) : ℚ) : ℝ) by push_cast; ring]
    exact Rat.floor_cast _
  rw [jsCoin, decide_eq_true_iff]
  constructor
  · intro hne
    exact ⟨⟨by exact_mod_cast h0, by exact_mod_cast h1⟩, by rw [hout]; exact hne⟩
  · rintro ⟨-, hcond⟩
    rw [hout] at hcond
    exact hcond

/-- C9: for each cell, randomize decides liveness from its one draw r through
the truthiness of Math.floor(r * 10 % 2) — a selected cell is alive afterwards
no matter its prior state — and the set of idealized uniform draws in [0, 1)
that select a cell has Lebesgue measure exactly one half. -/
theorem randomize_coin_measure :
    (∀ (w h : Int) (f : Int → Int → Bool) (draws : Int → Int → ℚ) (x y : Int),
        0 < w → 0 < h → InRange w h x y →
        ∃ g2, randomize (mkGrid w h f) draws = some g2 ∧
          readCell g2 x y = some (f x y || jsCoin (draws x y))) ∧
    (∀ q : ℚ, 0 ≤ q → q < 1 → (jsCoin q = true ↔ ((q : ℝ) ∈ aliveMeasureSet))) ∧
    MeasureTheory.volume aliveMeasureSet = 1 / 2 := by
  refine ⟨?_, fun q h0 h1 => jsCoin_iff_mem h0 h1, volume_aliveMeasureSet⟩
  intro w h f draws x y hw hh hin
  obtain ⟨p2, hrand, hread⟩ := randomize_mkGrid f draws hw hh
  exact ⟨_, hrand, hread x y hin⟩

/-- Witness for C9 on a 1 × 1 grid with the draw 3/10. -/
theorem randomize_coin_measure_check :
    ∃ g2, randomize (mkGrid 1 1 (fun _ _ => false)) (fun _ _ => (3/10 : ℚ)) = some g2 ∧
      readCell g2 0 0
        = some ((fun _ _ : Int => false) 0 0
            || jsCoin ((fun _ _ : Int => (3/10 : ℚ)) 0 0)) :=
  randomize_coin_measure.1 1 1 _ _ 0 0 (by decide) (by decide) (by decide)

/-- C10: randomize is purely additive: a cell that was alive stays alive no
matter its draw, and a cell not selected by its draw keeps its prior state
rather than being reset to dead. -/
theorem randomize_additive (w h : Int) (f : Int → Int → Bool) (draws : Int → Int → ℚ)
    (x y : Int) (hw : 0 < w) (hh : 0 < h) (hin : InRange w h x y) :
    ∃ g2, randomize (mkGrid w h f) draws = some g2 ∧
      (f x y = true → readCell g2 x y = some true) ∧
      (jsCoin (draws x y) = false → readCell g2 x y = readCell (mkGrid w h f) x y) := by
  obtain ⟨p2, hrand, hread⟩ := randomize_mkGrid f draws hw hh
  refine ⟨_, hrand, ?_, ?_⟩
  · intro hf
    have hcc := hread x y hin
    rw [hf, Bool.true_or] at hcc
    exact hcc
  · intro hc
    have hcc := hread x y hin
    rw [hc, Bool.or_false] at hcc
    have hold : readCell (mkGrid w h f) x y = some (f x y) := by
      rw [readCell, popRead_mkGrid h f ⟨hin.1, hin.2.1⟩,
        rowVal_of_range f x ⟨hin.2.2.1, hin.2.2.2⟩]
    rw [hold]
    exact hcc

/-- Witness for C10 on a 1 × 1 alive grid with an unselecting draw. -/
theorem randomize_additive_check :
    ∃ g2, randomize (mkGrid 1 1 (fun _ _ => true)) (fun _ _ => (1/4 : ℚ)) = some g2 ∧
      ((fun _ _ : Int => true) 0 0 = true → readCell g2 0 0 = some true) ∧
      (jsCoin ((fun _ _ : Int => (1/4 : ℚ)) 0 0) = false →
        readCell g2 0 0 = readCell (mkGrid 1 1 (fun _ _ => true)) 0 0) :=
  randomize_additive 1 1 _ _ 0 0 (by decide) (by decide) (by decide)

/-- C6: killAll does not complete normally.  On any grid with at least one row
the closing line this.future = this.extend(true, [], this.population) throws a
strict-mode TypeError, because the polyfill extend takes the boolean true as
its merge target and assigns the population rows onto a primitive.  The claim
that killAll always completes normally, leaves every cell dead and is
idempotent therefore fails; here it throws on the 1 × 1 all-alive grid. -/
theorem killAll_throws : killAll (mkGrid 1 1 (fun _ _ => true)) = none := rfl

/-- C8 counterexample: constructing with a non-positive width does not fail
with InvalidDimension or anything else — init returns a normal engine state
with the requested dimensions and an empty population (the (0,0) read hits no
row), so the claimed failure does not happen. -/
theorem init_does_not_reject :
    (init 0 3).xLength = 0 ∧ (init 0 3).yLength = 3 ∧ readCell (init 0 3) 0 0 = none := by
  refine ⟨rfl, rfl, ?_⟩
  decide

/-- C8 (amended): construction never fails: init performs no dimension check,
and for any dimensions it returns a grid with the given xLength and yLength in
which every cell of every existing row — in particular every in-range cell of
a grid with positive dimensions — is dead. -/
theorem init_all_dead (w h x y : Int) (hx0 : 0 ≤ x) (hxw : x < w) :
    (init w h).xLength = w ∧ (init w h).yLength = h ∧ readCell (init w h) x y = some false := by
  refine ⟨rfl, rfl, ?_⟩
  simp [init, readCell, popRead, hx0, hxw]

/-- Witness for C8 (amended) on a 3 × 2 grid. -/
theorem init_all_dead_check :
    (init 3 2).xLength = 3 ∧ (init 3 2).yLength = 2 ∧ readCell (init 3 2) 1 0 = some false :=
  init_all_dead 3 2 1 0 (by decide) (by decide)

end GoL
